import Mathlib

/-! Verification of the subtitle-generation core of edge-tts (`submaker.py`):
`FilteredText` builds a bidirectional character-index mapping between a text
and its filtered projection, and `SubMaker` accumulates word-boundary events
and derives SRT cue records.  Strings are modelled as `List Char`, Python
dicts as functions `Int → Option Int` built by explicit updates, Python sets
as `Finset Char`.  `srt.Subtitle` / `srt.compose` are external collaborators:
cue records are modelled by the `Subtitle` structure and `get_srt` returns the
list of cue records handed to the formatter, together with the mutated
`SubMaker` state. -/

set_option autoImplicit false

abbrev Str := List Char

/-- Python dict update `m[k] = v` for an integer-keyed dict modelled as a
function. -/
def dictSet (m : Int → Option Int) (k v : Int) : Int → Option Int :=
  fun j => if j = k then some v else m j

/-- State of `FilteredText` (`submaker.py`, lines 12-23). -/
structure FilteredText where
  otext : Str
  ftext : Option Str
  f_to_o_map : Int → Option Int
  o_to_f_map : Int → Option Int

/-- Constructor `FilteredText.__init__`: stores the text, `ftext = None`,
both dicts empty. -/
def FilteredText.init (text : Str) : FilteredText :=
  { otext := text, ftext := none, f_to_o_map := fun _ => none, o_to_f_map := fun _ => none }

/-- Loop of `FilteredText.filter_text` (`submaker.py`, lines 30-34): walks
`enumerate(self.otext)` with current enumeration index `i`, appending each
kept character to the accumulated `ftext` and writing
`f_to_o_map[len(ftext) - 1] = i` and `o_to_f_map[i] = len(ftext) - 1`. -/
def filterLoop (filter_chars : Finset Char) :
    Str → Nat → Str → (Int → Option Int) → (Int → Option Int) →
    Str × (Int → Option Int) × (Int → Option Int)
  | [], _, ftext, fo, om => (ftext, fo, om)
  | c :: rest, i, ftext, fo, om =>
    if c ∈ filter_chars then
      filterLoop filter_chars rest (i + 1) (ftext ++ [c])
        (dictSet fo (((ftext ++ [c]).length : Int) - 1) (i : Int))
        (dictSet om (i : Int) (((ftext ++ [c]).length : Int) - 1))
    else
      filterLoop filter_chars rest (i + 1) ftext fo om

/-- `FilteredText.filter_text` (`submaker.py`, lines 25-34): resets `ftext`
to the empty string and scans `otext`; the two dicts keep their previous
entries (the source does not clear them). -/
def FilteredText.filter_text (ft : FilteredText) (filter_chars : Finset Char) : FilteredText :=
  let r := filterLoop filter_chars ft.otext 0 [] ft.f_to_o_map ft.o_to_f_map
  { ft with ftext := some r.1, f_to_o_map := r.2.1, o_to_f_map := r.2.2 }

/-- `FilteredText.get_original_index` (`submaker.py`, lines 36-40):
`self.f_to_o_map.get(filtered_index, default)`. -/
def FilteredText.get_original_index (ft : FilteredText) (filtered_index default : Int) : Int :=
  (ft.f_to_o_map filtered_index).getD default

/-- `FilteredText.get_filtered_index` (`submaker.py`, lines 42-46):
`self.o_to_f_map.get(original_index, default)`. -/
def FilteredText.get_filtered_index (ft : FilteredText) (original_index default : Int) : Int :=
  (ft.o_to_f_map original_index).getD default

/-- State of `SubMaker` (`submaker.py`, lines 49-61). -/
structure SubMaker where
  full_prompt : Str
  word_boundary_offset : List (Int × Int)
  word_boundary_text : List Str
  word_boundary_chars : Finset Char

/-- Constructor `SubMaker.__init__` (`submaker.py`, lines 54-61). -/
def SubMaker.init (full_prompt : Str) : SubMaker :=
  { full_prompt := full_prompt, word_boundary_offset := [], word_boundary_text := [],
    word_boundary_chars := ∅ }

/-- `SubMaker.add_cue_part` (`submaker.py`, lines 63-76): appends
`(offset, offset + duration)` and the text, and unions the text's characters
into `word_boundary_chars`. -/
def SubMaker.add_cue_part (sm : SubMaker) (timestamp : Int × Int) (text : Str) : SubMaker :=
  { sm with
    word_boundary_offset := sm.word_boundary_offset ++ [(timestamp.1, timestamp.1 + timestamp.2)],
    word_boundary_text := sm.word_boundary_text ++ [text],
    word_boundary_chars := sm.word_boundary_chars ∪ text.toFinset }

/-- `SubMaker.make_filtered_text` (`submaker.py`, lines 78-89): discards the
space and comma characters from the stored `word_boundary_chars` (an in-place
mutation of the `SubMaker`, returned here as the second component) and filters
a fresh `FilteredText` over `full_prompt` with the reduced set. -/
def SubMaker.make_filtered_text (sm : SubMaker) : FilteredText × SubMaker :=
  let chars := (sm.word_boundary_chars.erase ' ').erase ','
  ((FilteredText.init sm.full_prompt).filter_text chars,
   { sm with word_boundary_chars := chars })

/-- Python list indexing `xs[i]`: a negative index counts from the end; an
index out of range after that adjustment raises `IndexError`, modelled as
`none`. -/
def pyGet {α : Type} (xs : List α) (i : Int) : Option α :=
  let j := if i < 0 then i + (xs.length : Int) else i
  if 0 ≤ j ∧ j < (xs.length : Int) then xs.get? j.toNat else none

/-- Python slicing `xs[a:b]`: negative bounds count from the end, then both
bounds are clamped into `[0, len xs]`. -/
def pySliceL {α : Type} (xs : List α) (a b : Int) : List α :=
  let n : Int := xs.length
  let a2 := if a < 0 then max 0 (n + a) else min a n
  let b2 := if b < 0 then max 0 (n + b) else min b n
  (xs.take b2.toNat).drop a2.toNat

/-- Python `s.replace(c, "")` for a single-character pattern: removes every
occurrence of `c`. -/
def pyRemoveChar (s : Str) (c : Char) : Str :=
  s.filter (fun x => decide (x ≠ c))

/-- Whether `sub` occurs at the very beginning of `s`. -/
def matchHead : Str → Str → Bool
  | [], _ => true
  | _ :: _, [] => false
  | a :: as, b :: bs => a == b && matchHead as bs

/-- Python `s.find(sub, start)` for a start position already adjusted to a
natural number: the least position `i ≥ st` (with `i ≤ len s`) where `sub`
occurs, `-1` if there is none. -/
def pyFindFrom (s sub : Str) (st : Nat) : Int :=
  match (List.range (s.length + 1)).find? (fun i => decide (st ≤ i) && matchHead sub (s.drop i)) with
  | some i => (i : Int)
  | none => -1

/-- Python `s.find(sub, start)`: a negative `start` counts from the end of
`s`, clamped below at 0. -/
def pyFind (s sub : Str) (start : Int) : Int :=
  pyFindFrom s sub (if start < 0 then ((s.length : Int) + start).toNat else start.toNat)

/-- Python `range(0, stop, step)` for `step ≥ 1`. -/
def pyRange (stop step : Nat) : List Nat :=
  (List.range ((stop + step - 1) / step)).map (fun k => k * step)

/-- Cue record handed to the external `srt` formatter (`srt.Subtitle`):
1-based sequence index, start and end times in microseconds, content text. -/
structure Subtitle where
  index : Nat
  start_time : ℚ
  end_time : ℚ
  content : Str
deriving DecidableEq

/-- One iteration of the `get_cue_data` loop with all of its local variables
recorded: the group's start event index `i`, the group length `i_end`, the
cursor value `last_in` read at entry (`last_filtered_index`), the stripped
group text `match_text`, `fend` (`fend_index`), `start_index`, `end_index`,
and the emitted cue. -/
structure CueStep where
  i : Nat
  i_end : Int
  last_in : Int
  match_text : Str
  fend : Int
  start_index : Int
  end_index : Int
  cue : Subtitle
deriving DecidableEq

/-- Body of the `get_cue_data` loop of `SubMaker.get_srt` (`submaker.py`,
lines 105-127) for the group starting at event index `i` with cursor value
`last`; `none` models an uncaught `IndexError` from list indexing. -/
def groupStep (sm : SubMaker) (ft : FilteredText) (ftxt : Str) (step : Nat)
    (i : Nat) (last : Int) : Option CueStep :=
  let M : Int := sm.word_boundary_offset.length
  let i_end : Int := min (step : Int) (M - (i : Int))
  match pyGet sm.word_boundary_offset (i : Int),
        pyGet sm.word_boundary_offset ((i : Int) + i_end - 1) with
  | some offFirst, some offLast =>
    let text := pyRemoveChar
      (pyRemoveChar ((pySliceL sm.word_boundary_text (i : Int) ((i : Int) + i_end)).flatten) ' ') ','
    let fend := pyFind ftxt text last + (text.length : Int) - 1
    let end_index := ft.get_original_index fend ((sm.full_prompt.length : Int) - 1)
    let start_index := ft.get_original_index last 0
    some { i := i, i_end := i_end, last_in := last, match_text := text, fend := fend,
           start_index := start_index, end_index := end_index,
           cue := { index := i + 1,
                    start_time := (offFirst.1 : ℚ) / 10,
                    end_time := (offLast.2 : ℚ) / 10,
                    content := pySliceL sm.full_prompt start_index (end_index + 1) } }
  | _, _ => none

/-- The `get_cue_data` generator (`submaker.py`, lines 102-127): processes the
group start indices in order, threading the cursor `last_filtered_index`
(set to `fend_index + 1` after each group). -/
def getCueSteps (sm : SubMaker) (ft : FilteredText) (ftxt : Str) (step : Nat) :
    List Nat → Int → Option (List CueStep)
  | [], _ => some []
  | i :: rest, last =>
    match groupStep sm ft ftxt step i last with
    | none => none
    | some cs =>
      match getCueSteps sm ft ftxt step rest (cs.fend + 1) with
      | none => none
      | some tail => some (cs :: tail)

/-- Trace of one `SubMaker.get_srt` run (`submaker.py`, lines 91-129): build
the filtered view (mutating the state), clamp `words_in_cue` to
`max(1, min(words_in_cue, M))`, and run the loop over
`range(0, M, words_in_cue)` starting with cursor 0. -/
def SubMaker.srtSteps (sm : SubMaker) (words_in_cue : Int) : Option (List CueStep) :=
  let p := sm.make_filtered_text
  let M := p.2.word_boundary_offset.length
  let step := (max 1 (min words_in_cue (M : Int))).toNat
  match p.1.ftext with
  | none => none
  | some ftxt => getCueSteps p.2 p.1 ftxt step (pyRange M step) 0

/-- `SubMaker.get_srt`: the list of cue records passed to the external
formatter `srt.compose`, together with the mutated `SubMaker` state. -/
def SubMaker.get_srt (sm : SubMaker) (words_in_cue : Int) : Option (List Subtitle) × SubMaker :=
  ((sm.srtSteps words_in_cue).map (List.map CueStep.cue), sm.make_filtered_text.2)

/-- A `SubMaker` built by constructing it on `prompt` and appending the given
`((offset, duration), text)` events with `add_cue_part`, in order. -/
def buildSubMaker (prompt : Str) (events : List ((Int × Int) × Str)) : SubMaker :=
  events.foldl (fun sm e => sm.add_cue_part e.1 e.2) (SubMaker.init prompt)

/-- A `FilteredText` freshly constructed over `T` and then filtered exactly
once with retain set `S` (the way `make_filtered_text` uses the class). -/
def freshFiltered (T : Str) (S : Finset Char) : FilteredText :=
  (FilteredText.init T).filter_text S

/-- The `FilteredText` object built by `make_filtered_text`. -/
def ftOf (sm : SubMaker) : FilteredText := sm.make_filtered_text.1

/-- The filtered prompt string stored in `make_filtered_text`'s result. -/
def theFtext (sm : SubMaker) : Str := (ftOf sm).ftext.getD []

/-- The (filtered index, original index) pairs written by one `filter_text`
pass over `t`, when the accumulated filtered text already has length `flen`
and the enumeration index starts at `i`. -/
def keptPairs (S : Finset Char) : Str → Nat → Nat → List (Nat × Nat)
  | [], _, _ => []
  | c :: rest, flen, i =>
    if c ∈ S then (flen, i) :: keptPairs S rest (flen + 1) (i + 1)
    else keptPairs S rest flen (i + 1)

/-- Apply the `f_to_o_map` writes of a pass to a base map. -/
def applyFo (m : Int → Option Int) (ps : List (Nat × Nat)) : Int → Option Int :=
  ps.foldl (fun acc p => dictSet acc (p.1 : Int) (p.2 : Int)) m

/-- Apply the `o_to_f_map` writes of a pass to a base map. -/
def applyOf (m : Int → Option Int) (ps : List (Nat × Nat)) : Int → Option Int :=
  ps.foldl (fun acc p => dictSet acc (p.2 : Int) (p.1 : Int)) m

/-! ### Characterization of `filter_text` in terms of `keptPairs` -/

theorem applyFo_cons (m : Int → Option Int) (p : Nat × Nat) (ps : List (Nat × Nat)) :
    applyFo m (p :: ps) = applyFo (dictSet m (p.1 : Int) (p.2 : Int)) ps := rfl

theorem applyOf_cons (m : Int → Option Int) (p : Nat × Nat) (ps : List (Nat × Nat)) :
    applyOf m (p :: ps) = applyOf (dictSet m (p.2 : Int) (p.1 : Int)) ps := rfl

theorem filterLoop_eq (S : Finset Char) (t : Str) : ∀ (i : Nat) (ftext : Str)
    (fo om : Int → Option Int),
    filterLoop S t i ftext fo om =
      (ftext ++ t.filter (fun c => decide (c ∈ S)),
       applyFo fo (keptPairs S t ftext.length i),
       applyOf om (keptPairs S t ftext.length i)) := by
  induction t with
  | nil => intro i ftext fo om; simp [filterLoop, keptPairs, applyFo, applyOf]
  | cons c rest ih =>
    intro i ftext fo om
    by_cases hc : c ∈ S
    · have h1 : ((ftext ++ [c]).length : Int) - 1 = ((ftext.length : Nat) : Int) := by
        simp
      rw [show filterLoop S (c :: rest) i ftext fo om =
            filterLoop S rest (i + 1) (ftext ++ [c])
              (dictSet fo (((ftext ++ [c]).length : Int) - 1) (i : Int))
              (dictSet om (i : Int) (((ftext ++ [c]).length : Int) - 1)) from by
            simp [filterLoop, hc]]
      rw [ih]
      simp only [keptPairs, if_pos hc, applyFo_cons, applyOf_cons]
      have h2 : ((ftext.length + 1 : Nat) : Int) - 1 = (ftext.length : Int) := by
        push_cast
        ring
      simp only [List.length_append, List.length_cons, List.length_nil, Nat.zero_add, h2]
      simp [List.filter_cons, hc]
    · rw [show filterLoop S (c :: rest) i ftext fo om =
            filterLoop S rest (i + 1) ftext fo om from by simp [filterLoop, hc]]
      rw [ih]
      simp [List.filter_cons, hc, keptPairs]

theorem filter_text_spec (ft : FilteredText) (S : Finset Char) :
    ft.filter_text S =
      { ft with
        ftext := some (ft.otext.filter (fun c => decide (c ∈ S)))
        f_to_o_map := applyFo ft.f_to_o_map (keptPairs S ft.otext 0 0)
        o_to_f_map := applyOf ft.o_to_f_map (keptPairs S ft.otext 0 0) } := by
  unfold FilteredText.filter_text
  rw [filterLoop_eq]
  rfl

theorem keptPairs_snd_mem (S : Finset Char) (t : Str) : ∀ (b i : Nat) (p : Nat × Nat),
    p ∈ keptPairs S t b i → i ≤ p.2 ∧ ∃ c, t.get? (p.2 - i) = some c ∧ c ∈ S := by
  induction t with
  | nil => intro b i p hp; simp [keptPairs] at hp
  | cons c rest ih =>
    intro b i p hp
    by_cases hc : c ∈ S
    · rw [keptPairs, if_pos hc] at hp
      rcases List.mem_cons.mp hp with h | h
      · subst h
        exact ⟨le_refl i, c, by simp, hc⟩
      · obtain ⟨hle, d, hd, hdS⟩ := ih (b + 1) (i + 1) p h
        refine ⟨by omega, d, ?_, hdS⟩
        have h2 : p.2 - i = (p.2 - (i + 1)) + 1 := by omega
        rw [h2]
        simpa using hd
    · rw [keptPairs, if_neg hc] at hp
      obtain ⟨hle, d, hd, hdS⟩ := ih b (i + 1) p hp
      refine ⟨by omega, d, ?_, hdS⟩
      have h2 : p.2 - i = (p.2 - (i + 1)) + 1 := by omega
      rw [h2]
      simpa using hd

theorem keptPairs_get?_fst (S : Finset Char) (t : Str) : ∀ (b i n : Nat) (p : Nat × Nat),
    (keptPairs S t b i).get? n = some p → p.1 = b + n := by
  induction t with
  | nil => intro b i n p hp; simp [keptPairs] at hp
  | cons c rest ih =>
    intro b i n p hp
    by_cases hc : c ∈ S
    · rw [keptPairs, if_pos hc] at hp
      cases n with
      | zero =>
        simp only [List.get?_cons_zero, Option.some.injEq] at hp
        subst hp
        simp
      | succ m =>
        simp only [List.get?_cons_succ] at hp
        have := ih (b + 1) (i + 1) m p hp
        omega
    · rw [keptPairs, if_neg hc] at hp
      exact ih b (i + 1) n p hp

theorem keptPairs_get?_snd (S : Finset Char) (t : Str) : ∀ (b i n : Nat) (p : Nat × Nat),
    (keptPairs S t b i).get? n = some p →
    (t.filter (fun c => decide (c ∈ S))).get? n = t.get? (p.2 - i) := by
  induction t with
  | nil => intro b i n p hp; simp [keptPairs] at hp
  | cons c rest ih =>
    intro b i n p hp
    by_cases hc : c ∈ S
    · rw [keptPairs, if_pos hc] at hp
      cases n with
      | zero =>
        simp only [List.get?_cons_zero, Option.some.injEq] at hp
        subst hp
        rw [List.filter_cons, if_pos (by simpa using hc)]
        simp
      | succ m =>
        simp only [List.get?_cons_succ] at hp
        rw [List.filter_cons, if_pos (by simpa using hc)]
        simp only [List.get?_cons_succ]
        have hmem : p ∈ keptPairs S rest (b + 1) (i + 1) := List.get?_mem hp
        have hge : i + 1 ≤ p.2 := (keptPairs_snd_mem S rest (b + 1) (i + 1) p hmem).1
        have h2 : p.2 - i = (p.2 - (i + 1)) + 1 := by omega
        rw [h2, List.get?_cons_succ]
        exact ih (b + 1) (i + 1) m p hp
    · rw [keptPairs, if_neg hc] at hp
      rw [List.filter_cons, if_neg (by simpa using hc)]
      have hmem : p ∈ keptPairs S rest b (i + 1) := List.get?_mem hp
      have hge : i + 1 ≤ p.2 := (keptPairs_snd_mem S rest b (i + 1) p hmem).1
      have h2 : p.2 - i = (p.2 - (i + 1)) + 1 := by omega
      rw [h2, List.get?_cons_succ]
      exact ih b (i + 1) n p hp

theorem keptPairs_snd_sorted (S : Finset Char) (t : Str) : ∀ (b i : Nat),
    (keptPairs S t b i).Pairwise (fun p q => p.2 < q.2) := by
  induction t with
  | nil => intro b i; simp [keptPairs]
  | cons c rest ih =>
    intro b i
    by_cases hc : c ∈ S
    · rw [keptPairs, if_pos hc]
      refine List.Pairwise.cons ?_ (ih (b + 1) (i + 1))
      intro q hq
      have := (keptPairs_snd_mem S rest (b + 1) (i + 1) q hq).1
      simpa using by omega
    · rw [keptPairs, if_neg hc]
      exact ih b (i + 1)

theorem keptPairs_length (S : Finset Char) (t : Str) : ∀ (b i : Nat),
    (keptPairs S t b i).length = (t.filter (fun c => decide (c ∈ S))).length := by
  induction t with
  | nil => intro b i; simp [keptPairs]
  | cons c rest ih =>
    intro b i
    by_cases hc : c ∈ S
    · rw [keptPairs, if_pos hc, List.filter_cons, if_pos (by simpa using hc)]
      simp [ih]
    · rw [keptPairs, if_neg hc, List.filter_cons, if_neg (by simpa using hc)]
      exact ih b (i + 1)

theorem keptPairs_complete (S : Finset Char) (t : Str) : ∀ (b i j : Nat) (c : Char),
    t.get? j = some c → c ∈ S → ∃ p, p ∈ keptPairs S t b i ∧ p.2 = i + j := by
  induction t with
  | nil => intro b i j c hj _; simp at hj
  | cons d rest ih =>
    intro b i j c hj hcS
    cases j with
    | zero =>
      simp at hj
      subst hj
      rw [keptPairs, if_pos hcS]
      exact ⟨(b, i), by simp, by simp⟩
    | succ m =>
      simp only [List.get?_cons_succ] at hj
      by_cases hd : d ∈ S
      · rw [keptPairs, if_pos hd]
        obtain ⟨p, hp, hp2⟩ := ih (b + 1) (i + 1) m c hj hcS
        exact ⟨p, List.mem_cons_of_mem _ hp, by omega⟩
      · rw [keptPairs, if_neg hd]
        obtain ⟨p, hp, hp2⟩ := ih b (i + 1) m c hj hcS
        exact ⟨p, hp, by omega⟩

theorem keptPairs_fst_sorted (S : Finset Char) (t : Str) : ∀ (b i : Nat),
    (keptPairs S t b i).Pairwise (fun p q => p.1 < q.1) := by
  induction t with
  | nil => intro b i; simp [keptPairs]
  | cons c rest ih =>
    intro b i
    by_cases hc : c ∈ S
    · rw [keptPairs, if_pos hc]
      refine List.Pairwise.cons ?_ (ih (b + 1) (i + 1))
      intro q hq
      obtain ⟨n, hn⟩ := List.get?_of_mem hq
      have := keptPairs_get?_fst S rest (b + 1) (i + 1) n q hn
      simp only
      omega
    · rw [keptPairs, if_neg hc]
      exact ih b (i + 1)

theorem pairwise_get?_lt {α : Type} {R : α → α → Prop} : ∀ {l : List α},
    l.Pairwise R → ∀ {m n : Nat} {a b : α}, m < n →
    l.get? m = some a → l.get? n = some b → R a b := by
  intro l hl
  induction hl with
  | nil => intro m n a b _ ha _; simp at ha
  | cons hhead htail ih =>
    intro m n a b hmn ha hb
    cases m with
    | zero =>
      simp only [List.get?_cons_zero, Option.some.injEq] at ha
      subst ha
      cases n with
      | zero => omega
      | succ k =>
        simp only [List.get?_cons_succ] at hb
        exact hhead b (List.get?_mem hb)
    | succ m2 =>
      cases n with
      | zero => omega
      | succ k =>
        simp only [List.get?_cons_succ] at ha hb
        exact ih (by omega) ha hb

/-! ### Evaluation of the maps built by `applyFo` / `applyOf` -/

theorem applyFo_not_mem (ps : List (Nat × Nat)) : ∀ (m : Int → Option Int) (k : Int),
    (∀ p ∈ ps, (p.1 : Int) ≠ k) → applyFo m ps k = m k := by
  induction ps with
  | nil => intro m k _; rfl
  | cons p rest ih =>
    intro m k h
    rw [applyFo_cons, ih _ _ (fun q hq => h q (List.mem_cons_of_mem _ hq))]
    have hne : (p.1 : Int) ≠ k := h p (List.mem_cons_self _ _)
    simp only [dictSet]
    rw [if_neg (fun h2 => hne h2.symm)]

theorem applyOf_not_mem (ps : List (Nat × Nat)) : ∀ (m : Int → Option Int) (k : Int),
    (∀ p ∈ ps, (p.2 : Int) ≠ k) → applyOf m ps k = m k := by
  induction ps with
  | nil => intro m k _; rfl
  | cons p rest ih =>
    intro m k h
    rw [applyOf_cons, ih _ _ (fun q hq => h q (List.mem_cons_of_mem _ hq))]
    have hne : (p.2 : Int) ≠ k := h p (List.mem_cons_self _ _)
    simp only [dictSet]
    rw [if_neg (fun h2 => hne h2.symm)]

theorem applyFo_mem (ps : List (Nat × Nat)) : ∀ (m : Int → Option Int) (a o : Nat),
    ps.Pairwise (fun p q => p.1 < q.1) → (a, o) ∈ ps →
    applyFo m ps (a : Int) = some (o : Int) := by
  induction ps with
  | nil => intro m a o _ h; simp at h
  | cons p rest ih =>
    intro m a o hps hmem
    rcases List.mem_cons.mp hmem with h | h
    · rw [applyFo_cons]
      have hrest : ∀ q ∈ rest, (q.1 : Int) ≠ (a : Int) := by
        intro q hq
        have := (List.pairwise_cons.mp hps).1 q hq
        subst h
        simp only at this
        intro hEq
        omega
      rw [applyFo_not_mem rest _ _ hrest]
      subst h
      simp [dictSet]
    · exact ih _ a o (List.pairwise_cons.mp hps).2 h

theorem applyOf_mem (ps : List (Nat × Nat)) : ∀ (m : Int → Option Int) (a o : Nat),
    ps.Pairwise (fun p q => p.2 < q.2) → (a, o) ∈ ps →
    applyOf m ps (o : Int) = some (a : Int) := by
  induction ps with
  | nil => intro m a o _ h; simp at h
  | cons p rest ih =>
    intro m a o hps hmem
    rcases List.mem_cons.mp hmem with h | h
    · rw [applyOf_cons]
      have hrest : ∀ q ∈ rest, (q.2 : Int) ≠ (o : Int) := by
        intro q hq
        have := (List.pairwise_cons.mp hps).1 q hq
        subst h
        simp only at this
        intro hEq
        omega
      rw [applyOf_not_mem rest _ _ hrest]
      subst h
      simp [dictSet]
    · exact ih _ a o (List.pairwise_cons.mp hps).2 h

theorem applyFo_some (ps : List (Nat × Nat)) : ∀ (m : Int → Option Int) (k v : Int),
    applyFo m ps k = some v → (∃ p ∈ ps, (p.1 : Int) = k) ∨ m k = some v := by
  induction ps with
  | nil => intro m k v h; exact Or.inr h
  | cons p rest ih =>
    intro m k v h
    rw [applyFo_cons] at h
    rcases ih _ k v h with h2 | h2
    · obtain ⟨q, hq, hq1⟩ := h2
      exact Or.inl ⟨q, List.mem_cons_of_mem _ hq, hq1⟩
    · by_cases hk : k = (p.1 : Int)
      · exact Or.inl ⟨p, List.mem_cons_self _ _, hk.symm⟩
      · simp only [dictSet, if_neg hk] at h2
        exact Or.inr h2

theorem applyOf_some (ps : List (Nat × Nat)) : ∀ (m : Int → Option Int) (k v : Int),
    applyOf m ps k = some v → (∃ p ∈ ps, (p.2 : Int) = k) ∨ m k = some v := by
  induction ps with
  | nil => intro m k v h; exact Or.inr h
  | cons p rest ih =>
    intro m k v h
    rw [applyOf_cons] at h
    rcases ih _ k v h with h2 | h2
    · obtain ⟨q, hq, hq1⟩ := h2
      exact Or.inl ⟨q, List.mem_cons_of_mem _ hq, hq1⟩
    · by_cases hk : k = (p.2 : Int)
      · exact Or.inl ⟨p, List.mem_cons_self _ _, hk.symm⟩
      · simp only [dictSet, if_neg hk] at h2
        exact Or.inr h2

/-! ### The state of a freshly filtered text -/

theorem freshFiltered_spec (T : Str) (S : Finset Char) :
    freshFiltered T S =
      { otext := T
        ftext := some (T.filter (fun c => decide (c ∈ S)))
        f_to_o_map := applyFo (fun _ => none) (keptPairs S T 0 0)
        o_to_f_map := applyOf (fun _ => none) (keptPairs S T 0 0) } := by
  unfold freshFiltered
  rw [filter_text_spec]
  rfl

theorem freshFiltered_ftext (T : Str) (S : Finset Char) :
    (freshFiltered T S).ftext = some (T.filter (fun c => decide (c ∈ S))) := by
  rw [freshFiltered_spec]

theorem freshFiltered_flen (T : Str) (S : Finset Char) :
    ((freshFiltered T S).ftext.getD []).length = (keptPairs S T 0 0).length := by
  rw [freshFiltered_ftext, Option.getD_some, keptPairs_length]

theorem freshFiltered_fo_get? (T : Str) (S : Finset Char) (n : Nat) (p : Nat × Nat)
    (hp : (keptPairs S T 0 0).get? n = some p) :
    (freshFiltered T S).f_to_o_map (n : Int) = some (p.2 : Int) := by
  rw [freshFiltered_spec]
  have h1 : p.1 = n := by simpa using keptPairs_get?_fst S T 0 0 n p hp
  have hmem : (n, p.2) ∈ keptPairs S T 0 0 := by
    have := List.get?_mem hp
    rwa [show p = (n, p.2) from by rw [← h1]] at this
  exact applyFo_mem _ _ n p.2 (keptPairs_fst_sorted S T 0 0) hmem

theorem freshFiltered_fo_none (T : Str) (S : Finset Char) (k : Int)
    (hk : k < 0 ∨ ((keptPairs S T 0 0).length : Int) ≤ k) :
    (freshFiltered T S).f_to_o_map k = none := by
  rw [freshFiltered_spec]
  refine applyFo_not_mem _ _ _ ?_
  intro p hp
  obtain ⟨n, hn⟩ := List.get?_of_mem hp
  have h1 : p.1 = n := by simpa using keptPairs_get?_fst S T 0 0 n p hn
  have h2 : n < (keptPairs S T 0 0).length := (List.get?_eq_some.mp hn).1
  rcases hk with hk | hk
  · intro hEq; omega
  · intro hEq; omega

theorem freshFiltered_of_mem (T : Str) (S : Finset Char) (p : Nat × Nat)
    (hp : p ∈ keptPairs S T 0 0) :
    (freshFiltered T S).o_to_f_map (p.2 : Int) = some (p.1 : Int) := by
  rw [freshFiltered_spec]
  exact applyOf_mem _ _ p.1 p.2 (keptPairs_snd_sorted S T 0 0) (by simpa using hp)

theorem freshFiltered_of_none (T : Str) (S : Finset Char) (k : Int)
    (hk : ∀ p ∈ keptPairs S T 0 0, (p.2 : Int) ≠ k) :
    (freshFiltered T S).o_to_f_map k = none := by
  rw [freshFiltered_spec]
  exact applyOf_not_mem _ _ _ hk


/-! ### Claims about `FilteredText` -/

/-- C2 counterexample: the claim says that after `filter_text S1` followed by
`filter_text S2` the maps contain only the entries derived from `S2`, all
entries from the `S1` pass having been cleared.  On `T = "ab"`,
`S1 = {a, b}`, `S2 = {b}`, the stale `S1` entry at filtered key 1 survives
(`f_to_o_map 1 = some 1`), while a fresh `filter_text S2` has no entry
there. -/
theorem C2_counterexample :
    (((FilteredText.init ['a', 'b']).filter_text {'a', 'b'}).filter_text {'b'}).f_to_o_map 1 =
      some 1 ∧
    ((FilteredText.init ['a', 'b']).filter_text {'b'}).f_to_o_map 1 = none := by
  exact ⟨by decide, by decide⟩

/-- C2 (amended): calling `filter_text S2` after `filter_text S1` on a fresh
`FilteredText` over `T` replaces `ftext` exactly as a single fresh
`filter_text S2` would, and every map entry the `S2` pass writes agrees with
the fresh maps; but at keys the `S2` pass does not write, the entries left by
the `S1` pass are retained — the maps are not cleared. -/
theorem C2_refilter_merge (T : Str) (S1 S2 : Finset Char) :
    ((freshFiltered T S1).filter_text S2).ftext = (freshFiltered T S2).ftext ∧
    (∀ k v : Int, (freshFiltered T S2).f_to_o_map k = some v →
      ((freshFiltered T S1).filter_text S2).f_to_o_map k = some v) ∧
    (∀ k v : Int, (freshFiltered T S2).o_to_f_map k = some v →
      ((freshFiltered T S1).filter_text S2).o_to_f_map k = some v) ∧
    (∀ k : Int, (freshFiltered T S2).f_to_o_map k = none →
      ((freshFiltered T S1).filter_text S2).f_to_o_map k = (freshFiltered T S1).f_to_o_map k) ∧
    (∀ k : Int, (freshFiltered T S2).o_to_f_map k = none →
      ((freshFiltered T S1).filter_text S2).o_to_f_map k = (freshFiltered T S1).o_to_f_map k) := by
  have hspec := filter_text_spec (freshFiltered T S1) S2
  rw [show (freshFiltered T S1).otext = T from rfl] at hspec
  refine ⟨?_, ?_, ?_, ?_, ?_⟩
  · rw [hspec, freshFiltered_ftext]
  · intro k v h
    rw [freshFiltered_spec] at h
    have h2 : applyFo (fun _ => none) (keptPairs S2 T 0 0) k = some v := h
    rcases applyFo_some _ _ _ _ h2 with ⟨p, hp, hpk⟩ | h3
    · have hval : applyFo (fun _ => none) (keptPairs S2 T 0 0) ((p.1 : Int)) =
          some (p.2 : Int) :=
        applyFo_mem _ _ p.1 p.2 (keptPairs_fst_sorted S2 T 0 0) (by simpa using hp)
      rw [hpk, h2] at hval
      have hv : v = (p.2 : Int) := Option.some.inj hval
      rw [hspec]
      show applyFo (freshFiltered T S1).f_to_o_map (keptPairs S2 T 0 0) k = some v
      rw [← hpk, hv]
      exact applyFo_mem _ _ p.1 p.2 (keptPairs_fst_sorted S2 T 0 0) (by simpa using hp)
    · simp at h3
  · intro k v h
    rw [freshFiltered_spec] at h
    have h2 : applyOf (fun _ => none) (keptPairs S2 T 0 0) k = some v := h
    rcases applyOf_some _ _ _ _ h2 with ⟨p, hp, hpk⟩ | h3
    · have hval : applyOf (fun _ => none) (keptPairs S2 T 0 0) ((p.2 : Int)) =
          some (p.1 : Int) :=
        applyOf_mem _ _ p.1 p.2 (keptPairs_snd_sorted S2 T 0 0) (by simpa using hp)
      rw [hpk, h2] at hval
      have hv : v = (p.1 : Int) := Option.some.inj hval
      rw [hspec]
      show applyOf (freshFiltered T S1).o_to_f_map (keptPairs S2 T 0 0) k = some v
      rw [← hpk, hv]
      exact applyOf_mem _ _ p.1 p.2 (keptPairs_snd_sorted S2 T 0 0) (by simpa using hp)
    · simp at h3
  · intro k h
    rw [freshFiltered_spec] at h
    have h2 : applyFo (fun _ => none) (keptPairs S2 T 0 0) k = none := h
    rw [hspec]
    show applyFo (freshFiltered T S1).f_to_o_map (keptPairs S2 T 0 0) k =
      (freshFiltered T S1).f_to_o_map k
    refine applyFo_not_mem _ _ _ ?_
    intro p hp hpk
    have hval : applyFo (fun _ => none) (keptPairs S2 T 0 0) ((p.1 : Int)) =
        some (p.2 : Int) :=
      applyFo_mem _ _ p.1 p.2 (keptPairs_fst_sorted S2 T 0 0) (by simpa using hp)
    rw [hpk, h2] at hval
    exact Option.noConfusion hval
  · intro k h
    rw [freshFiltered_spec] at h
    have h2 : applyOf (fun _ => none) (keptPairs S2 T 0 0) k = none := h
    rw [hspec]
    show applyOf (freshFiltered T S1).o_to_f_map (keptPairs S2 T 0 0) k =
      (freshFiltered T S1).o_to_f_map k
    refine applyOf_not_mem _ _ _ ?_
    intro p hp hpk
    have hval : applyOf (fun _ => none) (keptPairs S2 T 0 0) ((p.2 : Int)) =
        some (p.1 : Int) :=
      applyOf_mem _ _ p.1 p.2 (keptPairs_snd_sorted S2 T 0 0) (by simpa using hp)
    rw [hpk, h2] at hval
    exact Option.noConfusion hval

/-- C2 witness: concrete instance of `C2_refilter_merge` on `T = "ab"`,
`S1 = {a, b}`, `S2 = {b}`. -/
theorem C2_witness :
    ((freshFiltered ['a', 'b'] {'a', 'b'}).filter_text {'b'}).ftext =
      (freshFiltered ['a', 'b'] {'b'}).ftext ∧
    ((freshFiltered ['a', 'b'] {'a', 'b'}).filter_text {'b'}).f_to_o_map 0 = some 1 :=
  ⟨(C2_refilter_merge ['a', 'b'] {'a', 'b'} {'b'}).1,
   (C2_refilter_merge ['a', 'b'] {'a', 'b'} {'b'}).2.1 0 1 (by decide)⟩

/-- C6: after `filter_text` has been called exactly once with any retain set,
`get_filtered_index (get_original_index i d) d2 = i` for every filtered index
`i` in range, `get_original_index (get_filtered_index j d) d2 = j` for every
original index `j` whose character survived filtering, and
`get_filtered_index` returns the caller-supplied default for original indices
whose character was filtered out. -/
theorem C6_roundtrip (T : Str) (S : Finset Char) :
    (∀ i : Nat, i < ((freshFiltered T S).ftext.getD []).length → ∀ d d2 : Int,
      (freshFiltered T S).get_filtered_index
        ((freshFiltered T S).get_original_index (i : Int) d) d2 = (i : Int)) ∧
    (∀ (j : Nat) (c : Char), T.get? j = some c → c ∈ S → ∀ d d2 : Int,
      (freshFiltered T S).get_original_index
        ((freshFiltered T S).get_filtered_index (j : Int) d) d2 = (j : Int)) ∧
    (∀ (j : Nat) (c : Char), T.get? j = some c → c ∉ S → ∀ d : Int,
      (freshFiltered T S).get_filtered_index (j : Int) d = d) := by
  refine ⟨?_, ?_, ?_⟩
  · intro i hi d d2
    rw [freshFiltered_flen] at hi
    obtain ⟨p, hp⟩ : ∃ p, (keptPairs S T 0 0).get? i = some p := by
      cases hg : (keptPairs S T 0 0).get? i with
      | none => exact absurd (List.get?_eq_none.mp hg) (by omega)
      | some p => exact ⟨p, rfl⟩
    have hfo := freshFiltered_fo_get? T S i p hp
    have h1 : p.1 = i := by simpa using keptPairs_get?_fst S T 0 0 i p hp
    rw [FilteredText.get_original_index, hfo, Option.getD_some]
    rw [FilteredText.get_filtered_index, freshFiltered_of_mem T S p (List.get?_mem hp),
      Option.getD_some, h1]
  · intro j c hj hcS d d2
    obtain ⟨p, hp, hp2⟩ := keptPairs_complete S T 0 0 j c hj hcS
    have hp2' : p.2 = j := by omega
    have hof := freshFiltered_of_mem T S p hp
    rw [hp2'] at hof
    rw [FilteredText.get_filtered_index, hof, Option.getD_some]
    obtain ⟨n, hn⟩ := List.get?_of_mem hp
    have h1 : p.1 = n := by simpa using keptPairs_get?_fst S T 0 0 n p hn
    have hfo := freshFiltered_fo_get? T S n p hn
    rw [FilteredText.get_original_index, h1, hfo, Option.getD_some, hp2']
  · intro j c hj hcS d
    rw [FilteredText.get_filtered_index, freshFiltered_of_none, Option.getD_none]
    intro p hp hpk
    obtain ⟨_, c2, hc2, hc2S⟩ := keptPairs_snd_mem S T 0 0 p hp
    have hp2 : p.2 = j := by omega
    rw [hp2] at hc2
    simp only [Nat.sub_zero] at hc2
    rw [hj] at hc2
    exact hcS (by rw [Option.some.inj hc2]; exact hc2S)

/-- C6 witness: `T = "abc"`, `S = {a, c}` — round trips at filtered index 0
and surviving original index 2, and the default at the filtered-out index 1. -/
theorem C6_witness :
    (0 : Nat) < ((freshFiltered ['a', 'b', 'c'] {'a', 'c'}).ftext.getD []).length ∧
    (freshFiltered ['a', 'b', 'c'] {'a', 'c'}).get_filtered_index
      ((freshFiltered ['a', 'b', 'c'] {'a', 'c'}).get_original_index 0 5) 7 = 0 ∧
    (freshFiltered ['a', 'b', 'c'] {'a', 'c'}).get_original_index
      ((freshFiltered ['a', 'b', 'c'] {'a', 'c'}).get_filtered_index 2 5) 7 = 2 ∧
    (freshFiltered ['a', 'b', 'c'] {'a', 'c'}).get_filtered_index 1 9 = 9 :=
  ⟨by decide,
   (C6_roundtrip ['a', 'b', 'c'] {'a', 'c'}).1 0 (by decide) 5 7,
   (C6_roundtrip ['a', 'b', 'c'] {'a', 'c'}).2.1 2 'c' (by decide) (by decide) 5 7,
   (C6_roundtrip ['a', 'b', 'c'] {'a', 'c'}).2.2 1 'b' (by decide) (by decide) 9⟩

/-- C7: after a single `filter_text S` call on a fresh `FilteredText` over
`T`, every filtered character equals the original character at its mapped
original index, and `f_to_o_map` is strictly increasing in the filtered
index. -/
theorem C7_order_preservation (T : Str) (S : Finset Char) :
    (∀ i : Nat, i < ((freshFiltered T S).ftext.getD []).length →
      ∃ oi : Nat, (freshFiltered T S).f_to_o_map (i : Int) = some (oi : Int) ∧
        ((freshFiltered T S).ftext.getD []).get? i = T.get? oi) ∧
    (∀ (i1 i2 : Nat) (o1 o2 : Int), i1 < i2 →
      (freshFiltered T S).f_to_o_map (i1 : Int) = some o1 →
      (freshFiltered T S).f_to_o_map (i2 : Int) = some o2 → o1 < o2) := by
  constructor
  · intro i hi
    rw [freshFiltered_flen] at hi
    obtain ⟨p, hp⟩ : ∃ p, (keptPairs S T 0 0).get? i = some p := by
      cases hg : (keptPairs S T 0 0).get? i with
      | none => exact absurd (List.get?_eq_none.mp hg) (by omega)
      | some p => exact ⟨p, rfl⟩
    refine ⟨p.2, freshFiltered_fo_get? T S i p hp, ?_⟩
    rw [freshFiltered_ftext, Option.getD_some]
    simpa using keptPairs_get?_snd S T 0 0 i p hp
  · intro i1 i2 o1 o2 h12 h1 h2
    have hb1 : i1 < (keptPairs S T 0 0).length := by
      by_contra hb
      rw [freshFiltered_fo_none T S (i1 : Int) (Or.inr (by omega))] at h1
      exact Option.noConfusion h1
    have hb2 : i2 < (keptPairs S T 0 0).length := by
      by_contra hb
      rw [freshFiltered_fo_none T S (i2 : Int) (Or.inr (by omega))] at h2
      exact Option.noConfusion h2
    obtain ⟨p, hp⟩ : ∃ p, (keptPairs S T 0 0).get? i1 = some p := by
      cases hg : (keptPairs S T 0 0).get? i1 with
      | none => exact absurd (List.get?_eq_none.mp hg) (by omega)
      | some p => exact ⟨p, rfl⟩
    obtain ⟨q, hq⟩ : ∃ q, (keptPairs S T 0 0).get? i2 = some q := by
      cases hg : (keptPairs S T 0 0).get? i2 with
      | none => exact absurd (List.get?_eq_none.mp hg) (by omega)
      | some q => exact ⟨q, rfl⟩
    have hv1 := freshFiltered_fo_get? T S i1 p hp
    have hv2 := freshFiltered_fo_get? T S i2 q hq
    rw [h1] at hv1
    rw [h2] at hv2
    have hlt : p.2 < q.2 :=
      pairwise_get?_lt (keptPairs_snd_sorted S T 0 0) h12 hp hq
    rw [Option.some.inj hv1, Option.some.inj hv2]
    exact_mod_cast hlt

/-- C7 witness: `T = "abc"`, `S = {a, c}` — filtered index 1 maps to original
index 2 with matching characters, and the mapped original indices at filtered
indices 0 and 1 strictly increase. -/
theorem C7_witness :
    (1 : Nat) < ((freshFiltered ['a', 'b', 'c'] {'a', 'c'}).ftext.getD []).length ∧
    (∃ oi : Nat, (freshFiltered ['a', 'b', 'c'] {'a', 'c'}).f_to_o_map 1 = some (oi : Int) ∧
      ((freshFiltered ['a', 'b', 'c'] {'a', 'c'}).ftext.getD []).get? 1 =
        ['a', 'b', 'c'].get? oi) ∧
    (0 : Int) < 2 :=
  ⟨by decide,
   (C7_order_preservation ['a', 'b', 'c'] {'a', 'c'}).1 1 (by decide),
   (C7_order_preservation ['a', 'b', 'c'] {'a', 'c'}).2 0 1 0 2 (by decide) (by decide)
     (by decide)⟩

/-! ### Claims about `SubMaker.make_filtered_text` and repeated `get_srt` -/

/-- C1 counterexample: the claim says `make_filtered_text` leaves every
`SubMaker` field unchanged, in particular `word_boundary_chars`.  After an
event whose text contains a space, `make_filtered_text` discards the space
from the stored set in place, so the stored set differs afterwards. -/
theorem C1_counterexample :
    ¬ ((((SubMaker.init ['a', 'b']).add_cue_part (0, 1)
          ['a', ' ', 'b']).make_filtered_text.2.word_boundary_chars)
        = ((SubMaker.init ['a', 'b']).add_cue_part (0, 1) ['a', ' ', 'b']).word_boundary_chars) := by
  decide

/-- C1 (amended): `make_filtered_text` leaves `full_prompt`,
`word_boundary_offset` and `word_boundary_text` unchanged, but it replaces
`word_boundary_chars` by `word_boundary_chars` minus the space and comma
characters (so the stored set is mutated exactly when it contains either
character, and is unchanged when it contains neither); the returned
`FilteredText` is a fresh one over `full_prompt` filtered with that reduced
set. -/
theorem C1_make_filtered_text_mutation (sm : SubMaker) :
    sm.make_filtered_text.2.full_prompt = sm.full_prompt ∧
    sm.make_filtered_text.2.word_boundary_offset = sm.word_boundary_offset ∧
    sm.make_filtered_text.2.word_boundary_text = sm.word_boundary_text ∧
    sm.make_filtered_text.2.word_boundary_chars =
      (sm.word_boundary_chars.erase ' ').erase ',' ∧
    ((' ' ∉ sm.word_boundary_chars ∧ ',' ∉ sm.word_boundary_chars) →
      sm.make_filtered_text.2.word_boundary_chars = sm.word_boundary_chars) ∧
    sm.make_filtered_text.1 =
      freshFiltered sm.full_prompt ((sm.word_boundary_chars.erase ' ').erase ',') := by
  refine ⟨rfl, rfl, rfl, rfl, ?_, rfl⟩
  intro h
  show (sm.word_boundary_chars.erase ' ').erase ',' = sm.word_boundary_chars
  rw [Finset.erase_eq_of_not_mem h.1, Finset.erase_eq_of_not_mem h.2]

/-- C1 witness: on a `SubMaker` whose accumulated characters contain neither
space nor comma, the stored set is unchanged by `make_filtered_text`. -/
theorem C1_witness :
    (' ' ∉ ((SubMaker.init ['a', 'b']).add_cue_part (0, 1) ['a']).word_boundary_chars ∧
     ',' ∉ ((SubMaker.init ['a', 'b']).add_cue_part (0, 1) ['a']).word_boundary_chars) ∧
    ((SubMaker.init ['a', 'b']).add_cue_part (0, 1) ['a']).make_filtered_text.2.word_boundary_chars
      = ((SubMaker.init ['a', 'b']).add_cue_part (0, 1) ['a']).word_boundary_chars :=
  ⟨by decide,
   (C1_make_filtered_text_mutation
     ((SubMaker.init ['a', 'b']).add_cue_part (0, 1) ['a'])).2.2.2.2.1 (by decide)⟩

theorem erase_space_comma_idem (s : Finset Char) :
    (((s.erase ' ').erase ',').erase ' ').erase ',' = (s.erase ' ').erase ',' := by
  ext a
  simp only [Finset.mem_erase]
  tauto

theorem make_filtered_text_idem (sm : SubMaker) :
    sm.make_filtered_text.2.make_filtered_text = sm.make_filtered_text := by
  unfold SubMaker.make_filtered_text
  simp only
  rw [erase_space_comma_idem]

theorem srtSteps_after_mutation (sm : SubMaker) (N : Int) :
    sm.make_filtered_text.2.srtSteps N = sm.srtSteps N := by
  unfold SubMaker.srtSteps
  rw [make_filtered_text_idem]

/-- C10: running `get_srt` twice in succession with no intervening
`add_cue_part` produces identical cue-record sequences and identical final
states: the removal of space and comma from `word_boundary_chars` done by the
first call is idempotent, so the second call filters with the same set. -/
theorem C10_get_srt_repeat (sm : SubMaker) (N : Int) :
    ((sm.get_srt N).2.get_srt N).1 = (sm.get_srt N).1 ∧
    ((sm.get_srt N).2.get_srt N).2 = (sm.get_srt N).2 := by
  constructor
  · show ((sm.make_filtered_text.2).srtSteps N).map (List.map CueStep.cue) =
      (sm.srtSteps N).map (List.map CueStep.cue)
    rw [srtSteps_after_mutation]
  · show (sm.make_filtered_text.2).make_filtered_text.2 = sm.make_filtered_text.2
    rw [make_filtered_text_idem]

/-! ### Properties of the Python helpers -/

theorem pyGet_nonneg {α : Type} (xs : List α) (j : Int) (h0 : 0 ≤ j)
    (hlt : j < (xs.length : Int)) : ∃ a, pyGet xs j = some a := by
  have hj : (if j < 0 then j + (xs.length : Int) else j) = j := if_neg (by omega)
  simp only [pyGet, hj]
  rw [if_pos ⟨h0, hlt⟩]
  have hj2 : j.toNat < xs.length := by omega
  exact ⟨_, List.get?_eq_get hj2⟩

theorem pyRange_length (stop step : Nat) :
    (pyRange stop step).length = (stop + step - 1) / step := by
  simp [pyRange]

theorem pyRange_get? (stop step k : Nat) (h : k < (stop + step - 1) / step) :
    (pyRange stop step).get? k = some (k * step) := by
  unfold pyRange
  rw [List.get?_map, List.get?_range h]
  rfl

theorem pyRange_lt (stop step : Nat) (hstep : 1 ≤ step) :
    ∀ x ∈ pyRange stop step, x < stop := by
  intro x hx
  simp only [pyRange, List.mem_map, List.mem_range] at hx
  obtain ⟨k, hk, rfl⟩ := hx
  have h2 : k + 1 ≤ (stop + step - 1) / step := hk
  have h3 : (k + 1) * step ≤ stop + step - 1 := (Nat.le_div_iff_mul_le (by omega)).mp h2
  rw [Nat.succ_mul] at h3
  omega

theorem pyFind_nonneg_ge (s sub : Str) (start : Int)
    (h : 0 ≤ pyFind s sub start) : start ≤ pyFind s sub start := by
  unfold pyFind pyFindFrom at *
  cases hf : (List.range (s.length + 1)).find?
      (fun i => decide ((if start < 0 then ((s.length : Int) + start).toNat
        else start.toNat) ≤ i) && matchHead sub (s.drop i)) with
  | none =>
    rw [hf] at h
    simp at h
  | some i =>
    rw [hf] at h
    have h2 : (0 : Int) ≤ (i : Int) := h
    show start ≤ (i : Int)
    have hp := List.find?_some hf
    have hge : (if start < 0 then ((s.length : Int) + start).toNat
        else start.toNat) ≤ i := by
      have := Bool.and_elim_left hp
      simpa using this
    by_cases hneg : start < 0
    · omega
    · rw [if_neg hneg] at hge
      omega

/-! ### Properties of `groupStep` and `getCueSteps` -/

theorem groupStep_spec (sm : SubMaker) (ft : FilteredText) (ftxt : Str) (step : Nat)
    (i : Nat) (last : Int) (cs : CueStep)
    (h : groupStep sm ft ftxt step i last = some cs) :
    cs.i = i ∧ cs.last_in = last ∧
    cs.i_end = min (step : Int) ((sm.word_boundary_offset.length : Int) - (i : Int)) ∧
    cs.match_text = pyRemoveChar (pyRemoveChar ((pySliceL sm.word_boundary_text (i : Int)
      ((i : Int) + cs.i_end)).flatten) ' ') ',' ∧
    cs.fend = pyFind ftxt cs.match_text last + (cs.match_text.length : Int) - 1 ∧
    cs.end_index = ft.get_original_index cs.fend ((sm.full_prompt.length : Int) - 1) ∧
    cs.start_index = ft.get_original_index last 0 ∧
    (∃ offFirst, pyGet sm.word_boundary_offset (i : Int) = some offFirst ∧
      cs.cue.start_time = (offFirst.1 : ℚ) / 10) ∧
    (∃ offLast, pyGet sm.word_boundary_offset
        ((i : Int) + cs.i_end - 1) = some offLast ∧
      cs.cue.end_time = (offLast.2 : ℚ) / 10) ∧
    cs.cue.index = i + 1 ∧
    cs.cue.content = pySliceL sm.full_prompt cs.start_index (cs.end_index + 1) := by
  simp only [groupStep] at h
  split at h
  next offFirst offLast hg1 hg2 =>
    injection h with h2
    subst h2
    refine ⟨rfl, rfl, rfl, rfl, rfl, rfl, rfl, ⟨offFirst, hg1, rfl⟩, ⟨offLast, hg2, rfl⟩,
      rfl, rfl⟩
  next =>
    exact Option.noConfusion h

theorem groupStep_some (sm : SubMaker) (ft : FilteredText) (ftxt : Str) (step : Nat)
    (i : Nat) (last : Int) (hstep : 1 ≤ step)
    (hi : i < sm.word_boundary_offset.length) :
    ∃ cs, groupStep sm ft ftxt step i last = some cs := by
  obtain ⟨a1, ha1⟩ := pyGet_nonneg sm.word_boundary_offset (i : Int) (by omega) (by
    exact_mod_cast hi)
  have hie : (1 : Int) ≤ min (step : Int) ((sm.word_boundary_offset.length : Int) - (i : Int)) := by
    have h1 : (1 : Int) ≤ (step : Int) := by exact_mod_cast hstep
    have h2 : (i : Int) < (sm.word_boundary_offset.length : Int) := by exact_mod_cast hi
    omega
  obtain ⟨a2, ha2⟩ := pyGet_nonneg sm.word_boundary_offset
    ((i : Int) + min (step : Int) ((sm.word_boundary_offset.length : Int) - (i : Int)) - 1)
    (by omega) (by
      have h2 : (i : Int) < (sm.word_boundary_offset.length : Int) := by exact_mod_cast hi
      omega)
  have hs : (groupStep sm ft ftxt step i last).isSome = true := by
    simp only [groupStep]
    rw [ha1, ha2]
    rfl
  exact Option.isSome_iff_exists.mp hs

theorem getCueSteps_some (sm : SubMaker) (ft : FilteredText) (ftxt : Str) (step : Nat)
    (hstep : 1 ≤ step) : ∀ (l : List Nat) (last : Int),
    (∀ i ∈ l, i < sm.word_boundary_offset.length) →
    ∃ steps, getCueSteps sm ft ftxt step l last = some steps ∧ steps.length = l.length := by
  intro l
  induction l with
  | nil => intro last _; exact ⟨[], rfl, rfl⟩
  | cons i rest ih =>
    intro last hall
    obtain ⟨cs, hcs⟩ := groupStep_some sm ft ftxt step i last hstep
      (hall i (List.mem_cons_self _ _))
    obtain ⟨tail, htail, hlen⟩ := ih (cs.fend + 1)
      (fun x hx => hall x (List.mem_cons_of_mem _ hx))
    refine ⟨cs :: tail, ?_, by simp [hlen]⟩
    simp only [getCueSteps, hcs, htail]

theorem getCueSteps_get? (sm : SubMaker) (ft : FilteredText) (ftxt : Str) (step : Nat) :
    ∀ (l : List Nat) (last : Int) (steps : List CueStep),
    getCueSteps sm ft ftxt step l last = some steps →
    ∀ (k : Nat) (cs : CueStep), steps.get? k = some cs →
    ∃ i, l.get? k = some i ∧ groupStep sm ft ftxt step i cs.last_in = some cs := by
  intro l
  induction l with
  | nil =>
    intro last steps h k cs hk
    rw [getCueSteps] at h
    injection h with h
    subst h
    simp at hk
  | cons i rest ih =>
    intro last steps h k cs hk
    rw [getCueSteps] at h
    cases hg : groupStep sm ft ftxt step i last with
    | none =>
      simp only [hg] at h
      exact Option.noConfusion h
    | some cs0 =>
      simp only [hg] at h
      cases ht : getCueSteps sm ft ftxt step rest (cs0.fend + 1) with
      | none =>
        simp only [ht] at h
        exact Option.noConfusion h
      | some tail =>
        simp only [ht, Option.some.injEq] at h
        subst h
        cases k with
        | zero =>
          simp only [List.get?_cons_zero, Option.some.injEq] at hk
          subst hk
          have hlast : cs0.last_in = last := (groupStep_spec _ _ _ _ _ _ _ hg).2.1
          exact ⟨i, rfl, by rw [hlast]; exact hg⟩
        | succ m =>
          simp only [List.get?_cons_succ] at hk
          obtain ⟨i2, hi2, hgs⟩ := ih (cs0.fend + 1) tail ht m cs hk
          exact ⟨i2, by simpa using hi2, hgs⟩

theorem getCueSteps_head (sm : SubMaker) (ft : FilteredText) (ftxt : Str) (step : Nat)
    (l : List Nat) (last : Int) (steps : List CueStep)
    (h : getCueSteps sm ft ftxt step l last = some steps) :
    ∀ cs, steps.get? 0 = some cs → cs.last_in = last := by
  intro cs hk
  cases l with
  | nil =>
    rw [getCueSteps] at h
    injection h with h
    subst h
    simp at hk
  | cons i rest =>
    rw [getCueSteps] at h
    cases hg : groupStep sm ft ftxt step i last with
    | none =>
      simp only [hg] at h
      exact Option.noConfusion h
    | some cs0 =>
      simp only [hg] at h
      cases ht : getCueSteps sm ft ftxt step rest (cs0.fend + 1) with
      | none =>
        simp only [ht] at h
        exact Option.noConfusion h
      | some tail =>
        simp only [ht, Option.some.injEq] at h
        subst h
        simp only [List.get?_cons_zero, Option.some.injEq] at hk
        subst hk
        exact (groupStep_spec _ _ _ _ _ _ _ hg).2.1

theorem getCueSteps_chain (sm : SubMaker) (ft : FilteredText) (ftxt : Str) (step : Nat) :
    ∀ (l : List Nat) (last : Int) (steps : List CueStep),
    getCueSteps sm ft ftxt step l last = some steps →
    steps.Chain' (fun a b => b.last_in = a.fend + 1) := by
  intro l
  induction l with
  | nil =>
    intro last steps h
    rw [getCueSteps] at h
    injection h with h
    subst h
    exact List.chain'_nil
  | cons i rest ih =>
    intro last steps h
    rw [getCueSteps] at h
    cases hg : groupStep sm ft ftxt step i last with
    | none =>
      simp only [hg] at h
      exact Option.noConfusion h
    | some cs0 =>
      simp only [hg] at h
      cases ht : getCueSteps sm ft ftxt step rest (cs0.fend + 1) with
      | none =>
        simp only [ht] at h
        exact Option.noConfusion h
      | some tail =>
        simp only [ht, Option.some.injEq] at h
        subst h
        rw [List.chain'_cons']
        refine ⟨?_, ih (cs0.fend + 1) tail ht⟩
        intro b hb
        cases tail with
        | nil => simp at hb
        | cons b0 tl =>
          simp only [List.head?_cons, Option.mem_def, Option.some.injEq] at hb
          rw [← hb]
          exact getCueSteps_head sm ft ftxt step rest (cs0.fend + 1) (b0 :: tl) ht b0 rfl

/-! ### Unfolding `srtSteps` -/

theorem ftOf_eq_freshFiltered (sm : SubMaker) :
    ftOf sm = freshFiltered sm.full_prompt ((sm.word_boundary_chars.erase ' ').erase ',') := rfl

theorem ftOf_ftext (sm : SubMaker) : (ftOf sm).ftext = some (theFtext sm) := by
  rw [theFtext, ftOf_eq_freshFiltered, freshFiltered_ftext]
  rfl

theorem srtSteps_eq (sm : SubMaker) (N : Int) :
    sm.srtSteps N =
      getCueSteps sm.make_filtered_text.2 (ftOf sm) (theFtext sm)
        (max 1 (min N (sm.word_boundary_offset.length : Int))).toNat
        (pyRange sm.word_boundary_offset.length
          (max 1 (min N (sm.word_boundary_offset.length : Int))).toNat) 0 := by
  simp only [SubMaker.srtSteps]
  rw [show sm.make_filtered_text.1 = ftOf sm from rfl, ftOf_ftext]
  rfl

theorem clamp_step_pos (M : Nat) (N : Int) : 1 ≤ (max 1 (min N (M : Int))).toNat := by
  omega

theorem srtSteps_some (sm : SubMaker) (N : Int) :
    ∃ steps, sm.srtSteps N = some steps ∧
      steps.length = (sm.word_boundary_offset.length +
          (max 1 (min N (sm.word_boundary_offset.length : Int))).toNat - 1) /
        (max 1 (min N (sm.word_boundary_offset.length : Int))).toNat := by
  rw [srtSteps_eq]
  have hstep := clamp_step_pos sm.word_boundary_offset.length N
  obtain ⟨steps, hs, hlen⟩ := getCueSteps_some sm.make_filtered_text.2 (ftOf sm) (theFtext sm)
    (max 1 (min N (sm.word_boundary_offset.length : Int))).toNat hstep
    (pyRange sm.word_boundary_offset.length
      (max 1 (min N (sm.word_boundary_offset.length : Int))).toNat) 0
    (fun i hi => pyRange_lt _ _ hstep i hi)
  refine ⟨steps, hs, ?_⟩
  rw [hlen, pyRange_length]

/-! ### `SubMaker` states built from an event list -/

theorem buildLoop_fields (events : List ((Int × Int) × Str)) : ∀ (sm : SubMaker),
    (events.foldl (fun sm e => sm.add_cue_part e.1 e.2) sm).full_prompt = sm.full_prompt ∧
    (events.foldl (fun sm e => sm.add_cue_part e.1 e.2) sm).word_boundary_offset =
      sm.word_boundary_offset ++ events.map (fun e => (e.1.1, e.1.1 + e.1.2)) ∧
    (events.foldl (fun sm e => sm.add_cue_part e.1 e.2) sm).word_boundary_text =
      sm.word_boundary_text ++ events.map (fun e => e.2) := by
  induction events with
  | nil => intro sm; exact ⟨rfl, by simp, by simp⟩
  | cons e rest ih =>
    intro sm
    obtain ⟨h1, h2, h3⟩ := ih (sm.add_cue_part e.1 e.2)
    refine ⟨h1, ?_, ?_⟩
    · rw [List.foldl_cons] at *
      rw [h2]
      simp [SubMaker.add_cue_part]
    · rw [List.foldl_cons] at *
      rw [h3]
      simp [SubMaker.add_cue_part]

theorem buildSubMaker_prompt (prompt : Str) (events : List ((Int × Int) × Str)) :
    (buildSubMaker prompt events).full_prompt = prompt :=
  (buildLoop_fields events (SubMaker.init prompt)).1

theorem buildSubMaker_offsets (prompt : Str) (events : List ((Int × Int) × Str)) :
    (buildSubMaker prompt events).word_boundary_offset =
      events.map (fun e => (e.1.1, e.1.1 + e.1.2)) := by
  have h := (buildLoop_fields events (SubMaker.init prompt)).2.1
  simpa [SubMaker.init] using h

theorem buildSubMaker_texts (prompt : Str) (events : List ((Int × Int) × Str)) :
    (buildSubMaker prompt events).word_boundary_text = events.map (fun e => e.2) := by
  have h := (buildLoop_fields events (SubMaker.init prompt)).2.2
  simpa [SubMaker.init] using h

/-! ### Claims C5 and C9: cue count and totality -/

/-- C5: for a `SubMaker` with `M` appended events and `get_srt N` with
`N ≥ 1`, the number of emitted cue records is `ceil(M / N')` where `N'` is
`N` clamped to `[1, M]` (written `(M + N' - 1) / N'`); for `M = 0` the clamp
yields `N' = 1` and the count is 0. -/
theorem C5_cue_count (prompt : Str) (events : List ((Int × Int) × Str)) (N : Int)
    (hN : (1 : Int) ≤ N) :
    ((buildSubMaker prompt events).get_srt N).1.map List.length =
      some ((events.length + (max 1 (min N (events.length : Int))).toNat - 1) /
        (max 1 (min N (events.length : Int))).toNat) := by
  have hM : (buildSubMaker prompt events).word_boundary_offset.length = events.length := by
    rw [buildSubMaker_offsets, List.length_map]
  obtain ⟨steps, hs, hlen⟩ := srtSteps_some (buildSubMaker prompt events) N
  rw [hM] at hlen
  show (((buildSubMaker prompt events).srtSteps N).map (List.map CueStep.cue)).map
      List.length = _
  rw [hs]
  simp only [Option.map_some', Option.some.injEq, List.length_map]
  rw [hlen]

/-- C5 witness: three events, `N = 2`, gives `ceil(3 / 2) = 2` cues. -/
theorem C5_witness :
    (1 : Int) ≤ 2 ∧
    ((buildSubMaker ['a', 'b', 'c']
        [((0, 1), ['a']), ((1, 1), ['b']), ((2, 1), ['c'])]).get_srt 2).1.map List.length =
      some 2 :=
  ⟨by decide,
   C5_cue_count ['a', 'b', 'c'] [((0, 1), ['a']), ((1, 1), ['b']), ((2, 1), ['c'])] 2
     (by decide)⟩

/-- C9: for every sequence of `add_cue_part` calls and every integer
`words_in_cue` (including 0, negative, and oversized values) the cue pass of
`get_srt` produces its records without failing (`isSome`); with zero events it
yields zero cues; and the two index lookups return the caller-supplied
default for every out-of-range integer index, negative or past the end. -/
theorem C9_never_fails (prompt : Str) (events : List ((Int × Int) × Str)) (N : Int) :
    ((buildSubMaker prompt events).get_srt N).1.isSome = true ∧
    (events = [] → ((buildSubMaker prompt events).get_srt N).1 = some []) ∧
    (∀ (T : Str) (S : Finset Char) (j d : Int),
      j < 0 ∨ (((freshFiltered T S).ftext.getD []).length : Int) ≤ j →
      (freshFiltered T S).get_original_index j d = d) ∧
    (∀ (T : Str) (S : Finset Char) (j d : Int),
      j < 0 ∨ (T.length : Int) ≤ j →
      (freshFiltered T S).get_filtered_index j d = d) := by
  refine ⟨?_, ?_, ?_, ?_⟩
  · obtain ⟨steps, hs, _⟩ := srtSteps_some (buildSubMaker prompt events) N
    show (((buildSubMaker prompt events).srtSteps N).map (List.map CueStep.cue)).isSome = true
    rw [hs]
    rfl
  · intro hev
    subst hev
    obtain ⟨steps, hs, hlen⟩ := srtSteps_some (buildSubMaker prompt []) N
    have hM : (buildSubMaker prompt []).word_boundary_offset.length = 0 := by
      rw [buildSubMaker_offsets]
      rfl
    rw [hM] at hlen
    have hs1 : (max 1 (min N ((0 : Nat) : Int))).toNat = 1 := by
      simp only [Nat.cast_zero]
      omega
    rw [hs1] at hlen
    have hnil : steps = [] := List.length_eq_zero.mp (by omega)
    subst hnil
    show (((buildSubMaker prompt []).srtSteps N).map (List.map CueStep.cue)) = some []
    rw [hs]
    rfl
  · intro T S j d hj
    rw [FilteredText.get_original_index, freshFiltered_fo_none, Option.getD_none]
    rw [freshFiltered_flen] at hj
    exact hj
  · intro T S j d hj
    rw [FilteredText.get_filtered_index, freshFiltered_of_none, Option.getD_none]
    intro p hp hpk
    obtain ⟨_, c, hc, _⟩ := keptPairs_snd_mem S T 0 0 p hp
    have hlt : p.2 - 0 < T.length := (List.get?_eq_some.mp hc).1
    omega

/-- C9 witness: empty event list with `words_in_cue = 0` yields zero cues,
and the lookups return the defaults at a negative and a past-the-end index. -/
theorem C9_witness :
    ((buildSubMaker ['a'] []).get_srt 0).1 = some [] ∧
    (freshFiltered ['a'] {'a'}).get_original_index (-3) 7 = 7 ∧
    (freshFiltered ['a'] {'a'}).get_filtered_index 5 4 = 4 :=
  ⟨(C9_never_fails ['a'] [] 0).2.1 rfl,
   (C9_never_fails ['a'] [] 0).2.2.1 ['a'] {'a'} (-3) 7 (Or.inl (by decide)),
   (C9_never_fails ['a'] [] 0).2.2.2 ['a'] {'a'} 5 4 (Or.inr (by decide))⟩

/-! ### Claim C3: behaviour of a failed group match -/

theorem opt_eq_some_getD {α : Type} (o : Option α) (d : α) (h : o.isSome = true) :
    o = some (o.getD d) := by
  cases o with
  | none => simp at h
  | some a => rfl

/-- C3 counterexample: the claim says that whenever a group's match text does
not occur in the filtered text at or after the cursor, the cue's original end
index is `len(full_prompt) - 1`.  On prompt `"xy"` with the single event text
`"yx"`, the find fails (`pyFind = -1`) yet `fend_index = len("yx") - 2 = 0`
is a valid filtered index, so the emitted end index is 0, not
`len(full_prompt) - 1 = 1`. -/
theorem C3_counterexample :
    ((buildSubMaker ['x', 'y'] [((0, 5), ['y', 'x'])]).srtSteps 1).map
      (List.map CueStep.match_text) = some [['y', 'x']] ∧
    ((buildSubMaker ['x', 'y'] [((0, 5), ['y', 'x'])]).srtSteps 1).map
      (List.map CueStep.last_in) = some [0] ∧
    ((buildSubMaker ['x', 'y'] [((0, 5), ['y', 'x'])]).srtSteps 1).map
      (List.map CueStep.end_index) = some [0] ∧
    pyFind (theFtext (buildSubMaker ['x', 'y'] [((0, 5), ['y', 'x'])])) ['y', 'x'] 0 = -1 ∧
    ¬ ((0 : Int) =
        ((buildSubMaker ['x', 'y'] [((0, 5), ['y', 'x'])]).full_prompt.length : Int) - 1) := by
  refine ⟨by decide, by decide, by decide, by decide, by decide⟩

/-- C3 (amended): in a `get_srt` run, for every group whose match text is not
found at or after the cursor (`pyFind = -1`) and whose resulting
`fend_index = len(match_text) - 2` has no `f_to_o_map` entry, the emitted
cue's original end index is the default `len(full_prompt) - 1`. -/
theorem C3_no_match_default (sm : SubMaker) (N : Int) (steps : List CueStep) (k : Nat)
    (cs : CueStep)
    (hs : sm.srtSteps N = some steps)
    (hk : steps.get? k = some cs)
    (hfind : pyFind (theFtext sm) cs.match_text cs.last_in = -1)
    (hmap : (ftOf sm).f_to_o_map ((cs.match_text.length : Int) - 2) = none) :
    cs.end_index = (sm.full_prompt.length : Int) - 1 := by
  rw [srtSteps_eq] at hs
  obtain ⟨i, hi, hgs⟩ := getCueSteps_get? _ _ _ _ _ _ _ hs k cs hk
  have hspec := groupStep_spec _ _ _ _ _ _ _ hgs
  have hfend := hspec.2.2.2.2.1
  have hend := hspec.2.2.2.2.2.1
  rw [hfind] at hfend
  have hf2 : cs.fend = (cs.match_text.length : Int) - 2 := by omega
  rw [hend, hf2, FilteredText.get_original_index, hmap, Option.getD_none]
  rfl

/-- C3 witness: prompt `"a"`, single event text `"zz"`: the find fails, the
filtered text is empty so `fend_index = 0` has no map entry, and the cue is
extended to `len(full_prompt) - 1 = 0`. -/
theorem C3_witness :
    pyFind (theFtext (buildSubMaker ['a'] [((0, 7), ['z', 'z'])]))
      ((((((buildSubMaker ['a'] [((0, 7), ['z', 'z'])]).srtSteps 1).getD []).get? 0).getD
        ⟨0, 0, 0, [], 0, 0, 0, ⟨0, 0, 0, []⟩⟩).match_text)
      ((((((buildSubMaker ['a'] [((0, 7), ['z', 'z'])]).srtSteps 1).getD []).get? 0).getD
        ⟨0, 0, 0, [], 0, 0, 0, ⟨0, 0, 0, []⟩⟩).last_in) = -1 ∧
    (((((buildSubMaker ['a'] [((0, 7), ['z', 'z'])]).srtSteps 1).getD []).get? 0).getD
        ⟨0, 0, 0, [], 0, 0, 0, ⟨0, 0, 0, []⟩⟩).end_index =
      ((buildSubMaker ['a'] [((0, 7), ['z', 'z'])]).full_prompt.length : Int) - 1 :=
  ⟨by decide,
   C3_no_match_default (buildSubMaker ['a'] [((0, 7), ['z', 'z'])]) 1
     (((buildSubMaker ['a'] [((0, 7), ['z', 'z'])]).srtSteps 1).getD []) 0
     (((((buildSubMaker ['a'] [((0, 7), ['z', 'z'])]).srtSteps 1).getD []).get? 0).getD
        ⟨0, 0, 0, [], 0, 0, 0, ⟨0, 0, 0, []⟩⟩)
     (opt_eq_some_getD _ [] (by decide))
     (opt_eq_some_getD _ _ (by decide))
     (by decide) (by decide)⟩

/-! ### Claim C4: the cursor across groups -/

/-- C4 counterexample: the claim says the cursor `last_filtered_index` is
non-decreasing across successive groups.  On prompt `"abcz"` with events
`"abc"`, `"zz"`, `"ab"` and `words_in_cue = 1`, the second group's find fails
and resets the cursor to `len("zz") - 1 = 1 < 3`, so the cursor values read
by the three groups are `[0, 3, 1]` — rewound. -/
theorem C4_counterexample :
    ((buildSubMaker ['a', 'b', 'c', 'z']
        [((0, 1), ['a', 'b', 'c']), ((2, 1), ['z', 'z']), ((4, 1), ['a', 'b'])]).srtSteps 1).map
      (List.map CueStep.last_in) = some [0, 3, 1] ∧
    ¬ ((3 : Int) ≤ 1) := by
  exact ⟨by decide, by decide⟩

theorem cueSteps_mono (sm : SubMaker) (ft : FilteredText) (ftxt : Str) (step : Nat) :
    ∀ (l : List Nat) (last : Int) (steps : List CueStep),
    getCueSteps sm ft ftxt step l last = some steps →
    (∀ cs ∈ steps, 0 ≤ pyFind ftxt cs.match_text cs.last_in) →
    steps.Chain' (fun a b => a.last_in ≤ b.last_in) := by
  intro l
  induction l with
  | nil =>
    intro last steps h _
    rw [getCueSteps] at h
    injection h with h
    subst h
    exact List.chain'_nil
  | cons i rest ih =>
    intro last steps h hsucc
    rw [getCueSteps] at h
    cases hg : groupStep sm ft ftxt step i last with
    | none =>
      simp only [hg] at h
      exact Option.noConfusion h
    | some cs0 =>
      simp only [hg] at h
      cases ht : getCueSteps sm ft ftxt step rest (cs0.fend + 1) with
      | none =>
        simp only [ht] at h
        exact Option.noConfusion h
      | some tail =>
        simp only [ht, Option.some.injEq] at h
        subst h
        rw [List.chain'_cons']
        constructor
        · intro b hb
          have hspec := groupStep_spec _ _ _ _ _ _ _ hg
          have hlast : cs0.last_in = last := hspec.2.1
          have hfend : cs0.fend =
              pyFind ftxt cs0.match_text last + (cs0.match_text.length : Int) - 1 :=
            hspec.2.2.2.2.1
          rw [← hlast] at hfend
          have hsucc0 : 0 ≤ pyFind ftxt cs0.match_text cs0.last_in :=
            hsucc cs0 (List.mem_cons_self _ _)
          have hge := pyFind_nonneg_ge ftxt cs0.match_text cs0.last_in hsucc0
          cases tail with
          | nil => simp at hb
          | cons b0 tl =>
            simp only [List.head?_cons, Option.mem_def, Option.some.injEq] at hb
            rw [← hb]
            have hb0 : b0.last_in = cs0.fend + 1 :=
              getCueSteps_head sm ft ftxt step rest (cs0.fend + 1) (b0 :: tl) ht b0 rfl
            rw [hb0, hfend]
            have hlen : (0 : Int) ≤ (cs0.match_text.length : Int) := Int.natCast_nonneg _
            omega
        · exact ih (cs0.fend + 1) tail ht
            (fun cs hcs => hsucc cs (List.mem_cons_of_mem _ hcs))

/-- C4 (amended): in every `get_srt` run the cursor starts at 0, and it is
non-decreasing across successive groups provided every group's match text is
found at or after the cursor (a failed find can rewind it, see the
counterexample); in the repeated-word scenario `"run run away"` with
`words_in_cue = 1` all finds succeed and the three matched filtered-text
positions are 0, 3, 6 — strictly increasing, so the second `"run"` does not
re-match the first occurrence. -/
theorem C4_cursor_monotone :
    (∀ (sm : SubMaker) (N : Int) (steps : List CueStep), sm.srtSteps N = some steps →
      (∀ cs, steps.get? 0 = some cs → cs.last_in = 0) ∧
      ((∀ cs ∈ steps, 0 ≤ pyFind (theFtext sm) cs.match_text cs.last_in) →
        steps.Chain' (fun a b => a.last_in ≤ b.last_in))) ∧
    (((buildSubMaker ['r', 'u', 'n', ' ', 'r', 'u', 'n', ' ', 'a', 'w', 'a', 'y']
        [((0, 10), ['r', 'u', 'n']), ((10, 10), ['r', 'u', 'n']),
         ((20, 10), ['a', 'w', 'a', 'y'])]).srtSteps 1).map
      (List.map (fun cs => cs.fend - (cs.match_text.length : Int) + 1)) = some [0, 3, 6] ∧
      ((0 : Int) < 3 ∧ (3 : Int) < 6)) := by
  constructor
  · intro sm N steps hs
    rw [srtSteps_eq] at hs
    constructor
    · intro cs h0
      exact getCueSteps_head _ _ _ _ _ _ _ hs cs h0
    · intro hsucc
      exact cueSteps_mono _ _ _ _ _ _ _ hs hsucc
  · exact ⟨by decide, by decide, by decide⟩

/-- C4 witness: a concrete two-event run in which every find succeeds, whose
cursor sequence is therefore non-decreasing. -/
theorem C4_witness :
    ((((buildSubMaker ['a', 'b'] [((0, 1), ['a']), ((1, 1), ['b'])]).srtSteps 1).getD
        []).Chain' (fun a b => a.last_in ≤ b.last_in)) :=
  (C4_cursor_monotone.1 (buildSubMaker ['a', 'b'] [((0, 1), ['a']), ((1, 1), ['b'])]) 1
     (((buildSubMaker ['a', 'b'] [((0, 1), ['a']), ((1, 1), ['b'])]).srtSteps 1).getD [])
     (opt_eq_some_getD _ [] (by decide))).2 (by decide)

/-! ### Claim C8: temporal ordering of cues -/

theorem chain'_get?_adj {α : Type} {R : α → α → Prop} : ∀ (l : List α), l.Chain' R →
    ∀ (n : Nat) (a b : α), l.get? n = some a → l.get? (n + 1) = some b → R a b := by
  intro l
  induction l with
  | nil => intro _ n a b ha _; simp at ha
  | cons x xs ih =>
    intro h n a b ha hb
    obtain ⟨hhead, htail⟩ := List.chain'_cons'.mp h
    cases n with
    | zero =>
      simp only [List.get?_cons_zero, Option.some.injEq] at ha
      simp only [List.get?_cons_succ] at hb
      cases xs with
      | nil => simp at hb
      | cons y ys =>
        simp only [List.get?_cons_zero, Option.some.injEq] at hb
        rw [← ha, ← hb]
        exact hhead y rfl
    | succ m =>
      simp only [List.get?_cons_succ] at ha hb
      exact ih htail m a b ha hb

theorem chain'_of_get? {α : Type} {R : α → α → Prop} : ∀ (l : List α),
    (∀ (n : Nat) (a b : α), l.get? n = some a → l.get? (n + 1) = some b → R a b) →
    l.Chain' R := by
  intro l
  induction l with
  | nil => intro _; exact List.chain'_nil
  | cons x xs ih =>
    intro h
    rw [List.chain'_cons']
    constructor
    · intro y hy
      cases xs with
      | nil => simp at hy
      | cons z zs =>
        simp only [List.head?_cons, Option.mem_def, Option.some.injEq] at hy
        rw [← hy]
        exact h 0 x z rfl rfl
    · exact ih (fun n a b ha hb => h (n + 1) a b (by simpa using ha) (by simpa using hb))

theorem offsets_adj_le {O : List (Int × Int)} (h1 : ∀ p ∈ O, p.1 ≤ p.2)
    (h2 : O.Chain' (fun p q => p.2 ≤ q.1)) :
    ∀ (d a : Nat) (pa pb : Int × Int), O.get? a = some pa →
      O.get? (a + d + 1) = some pb → pa.2 ≤ pb.1 := by
  intro d
  induction d with
  | zero =>
    intro a pa pb ha hb
    exact chain'_get?_adj O h2 a pa pb ha (by simpa using hb)
  | succ d2 ih =>
    intro a pa pb ha hb
    have hblt : a + d2 + 1 < O.length := by
      have := (List.get?_eq_some.mp hb).1
      omega
    obtain ⟨q, hq⟩ : ∃ q, O.get? (a + d2 + 1) = some q := ⟨_, List.get?_eq_get hblt⟩
    have haq : pa.2 ≤ q.1 := ih a pa q ha hq
    have hq12 : q.1 ≤ q.2 := h1 q (List.get?_mem hq)
    have hqb : q.2 ≤ pb.1 := by
      refine chain'_get?_adj O h2 (a + d2 + 1) q pb hq ?_
      rw [show a + d2 + 1 + 1 = a + (d2 + 1) + 1 from by omega]
      exact hb
    omega

theorem offsets_lt_le {O : List (Int × Int)} (h1 : ∀ p ∈ O, p.1 ≤ p.2)
    (h2 : O.Chain' (fun p q => p.2 ≤ q.1)) (a b : Nat) (pa pb : Int × Int)
    (hab : a < b) (ha : O.get? a = some pa) (hb : O.get? b = some pb) : pa.2 ≤ pb.1 := by
  have hd : b = a + (b - a - 1) + 1 := by omega
  rw [hd] at hb
  exact offsets_adj_le h1 h2 (b - a - 1) a pa pb ha hb

theorem offsets_le_le {O : List (Int × Int)} (h1 : ∀ p ∈ O, p.1 ≤ p.2)
    (h2 : O.Chain' (fun p q => p.2 ≤ q.1)) (a b : Nat) (pa pb : Int × Int)
    (hab : a ≤ b) (ha : O.get? a = some pa) (hb : O.get? b = some pb) : pa.1 ≤ pb.2 := by
  rcases Nat.lt_or_ge a b with h | h
  · have h3 := offsets_lt_le h1 h2 a b pa pb h ha hb
    have h4 := h1 pa (List.get?_mem ha)
    have h5 := h1 pb (List.get?_mem hb)
    omega
  · have hba : a = b := by omega
    subst hba
    rw [ha] at hb
    have : pa = pb := Option.some.inj hb
    subst this
    exact h1 pa (List.get?_mem ha)

theorem pyGet_eq_get? {α : Type} (xs : List α) (j : Int) (h0 : 0 ≤ j) (p : α)
    (h : pyGet xs j = some p) : xs.get? j.toNat = some p := by
  have hj : (if j < 0 then j + (xs.length : Int) else j) = j := if_neg (by omega)
  simp only [pyGet, hj] at h
  by_cases hc : 0 ≤ j ∧ j < (xs.length : Int)
  · rw [if_pos hc] at h
    exact h
  · rw [if_neg hc] at h
    exact Option.noConfusion h

theorem step_time_data (sm : SubMaker) (N : Int) (steps : List CueStep) (k : Nat)
    (cs : CueStep) (hs : sm.srtSteps N = some steps) (hk : steps.get? k = some cs) :
    ∃ (a b : Nat) (pa pb : Int × Int),
      sm.word_boundary_offset.get? a = some pa ∧
      sm.word_boundary_offset.get? b = some pb ∧
      a ≤ b ∧
      b < a + (max 1 (min N (sm.word_boundary_offset.length : Int))).toNat ∧
      a = k * (max 1 (min N (sm.word_boundary_offset.length : Int))).toNat ∧
      cs.cue.start_time = (pa.1 : ℚ) / 10 ∧ cs.cue.end_time = (pb.2 : ℚ) / 10 := by
  rw [srtSteps_eq] at hs
  obtain ⟨i, hi, hgs⟩ := getCueSteps_get? _ _ _ _ _ _ _ hs k cs hk
  have hstep := clamp_step_pos sm.word_boundary_offset.length N
  have hkb : k < (pyRange sm.word_boundary_offset.length
      (max 1 (min N (sm.word_boundary_offset.length : Int))).toNat).length :=
    (List.get?_eq_some.mp hi).1
  rw [pyRange_length] at hkb
  have hival := pyRange_get? sm.word_boundary_offset.length
    (max 1 (min N (sm.word_boundary_offset.length : Int))).toNat k hkb
  rw [hi] at hival
  have hieq : i = k * (max 1 (min N (sm.word_boundary_offset.length : Int))).toNat :=
    Option.some.inj hival
  have hiM : i < sm.word_boundary_offset.length :=
    pyRange_lt _ _ hstep i (List.get?_mem hi)
  have hspec := groupStep_spec _ _ _ _ _ _ _ hgs
  obtain ⟨pa, hpa, hstart⟩ := hspec.2.2.2.2.2.2.2.1
  obtain ⟨pb, hpb, hend⟩ := hspec.2.2.2.2.2.2.2.2.1
  have hie := hspec.2.2.1
  have hpa2 : pyGet sm.word_boundary_offset (i : Int) = some pa := hpa
  have hie2 : cs.i_end = min ((max 1 (min N (sm.word_boundary_offset.length : Int))).toNat : Int)
      ((sm.word_boundary_offset.length : Int) - (i : Int)) := hie
  have hpb2 : pyGet sm.word_boundary_offset ((i : Int) + cs.i_end - 1) = some pb := hpb
  have hiepos : (1 : Int) ≤ cs.i_end := by
    rw [hie2]
    omega
  have hieub : cs.i_end ≤ ((max 1 (min N (sm.word_boundary_offset.length : Int))).toNat : Int) := by
    rw [hie2]
    omega
  have hieub2 : (i : Int) + cs.i_end - 1 < (sm.word_boundary_offset.length : Int) := by
    rw [hie2]
    omega
  have hga : sm.word_boundary_offset.get? ((i : Int).toNat) = some pa :=
    pyGet_eq_get? _ _ (by omega) _ hpa2
  have hgb : sm.word_boundary_offset.get? (((i : Int) + cs.i_end - 1).toNat) = some pb :=
    pyGet_eq_get? _ _ (by omega) _ hpb2
  refine ⟨(i : Int).toNat, ((i : Int) + cs.i_end - 1).toNat, pa, pb, hga, hgb,
    by omega, by omega, by omega, hstart, hend⟩

/-- C8: if every appended event has non-negative duration and the events are
non-overlapping and temporally ordered (`offset + duration ≤ next offset`),
then in every `get_srt` run each cue's start time is at most its end time,
and each cue's end time is at most the next cue's start time. -/
theorem C8_temporal_order (prompt : Str) (events : List ((Int × Int) × Str)) (N : Int)
    (hdur : ∀ e ∈ events, 0 ≤ e.1.2)
    (hord : events.Chain' (fun a b => a.1.1 + a.1.2 ≤ b.1.1)) :
    ∃ cues, ((buildSubMaker prompt events).get_srt N).1 = some cues ∧
      (∀ c ∈ cues, c.start_time ≤ c.end_time) ∧
      cues.Chain' (fun a b => a.end_time ≤ b.start_time) := by
  obtain ⟨steps, hs, _⟩ := srtSteps_some (buildSubMaker prompt events) N
  have hO1 : ∀ p ∈ (buildSubMaker prompt events).word_boundary_offset, p.1 ≤ p.2 := by
    rw [buildSubMaker_offsets]
    intro p hp
    obtain ⟨e, he, he2⟩ := List.mem_map.mp hp
    have := hdur e he
    rw [← he2]
    simp only
    omega
  have hO2 : (buildSubMaker prompt events).word_boundary_offset.Chain'
      (fun p q => p.2 ≤ q.1) := by
    rw [buildSubMaker_offsets, List.chain'_map]
    exact hord
  refine ⟨steps.map CueStep.cue, ?_, ?_, ?_⟩
  · show ((buildSubMaker prompt events).srtSteps N).map (List.map CueStep.cue) = _
    rw [hs]
    rfl
  · intro c hc
    obtain ⟨cs, hcs, hc2⟩ := List.mem_map.mp hc
    obtain ⟨k, hk⟩ := List.get?_of_mem hcs
    obtain ⟨a, b, pa, pb, hpa, hpb, hab, hblt, hav, hstart, hend⟩ :=
      step_time_data _ N steps k cs hs hk
    rw [← hc2, hstart, hend]
    have h12 : pa.1 ≤ pb.2 := offsets_le_le hO1 hO2 a b pa pb hab hpa hpb
    have hq : (pa.1 : ℚ) ≤ (pb.2 : ℚ) := by exact_mod_cast h12
    exact (div_le_div_right (by norm_num : (0 : ℚ) < 10)).mpr hq
  · rw [List.chain'_map]
    refine chain'_of_get? steps ?_
    intro n s t hn hn1
    obtain ⟨a, b, pa, pb, hpa, hpb, hab, hblt, hav, hstart, hend⟩ :=
      step_time_data _ N steps n s hs hn
    obtain ⟨a2, b2, pa2, pb2, hpa2, hpb2, hab2, hblt2, hav2, hstart2, hend2⟩ :=
      step_time_data _ N steps (n + 1) t hs hn1
    show s.cue.end_time ≤ t.cue.start_time
    rw [hend, hstart2]
    have hlt : b < a2 := by
      have ha2v : a2 = a + (max 1 (min N
          ((buildSubMaker prompt events).word_boundary_offset.length : Int))).toNat := by
        rw [hav2, hav, Nat.succ_mul]
      omega
    have h21 : pb.2 ≤ pa2.1 := offsets_lt_le hO1 hO2 b a2 pb pa2 hlt hpb hpa2
    have hq : (pb.2 : ℚ) ≤ (pa2.1 : ℚ) := by exact_mod_cast h21
    exact (div_le_div_right (by norm_num : (0 : ℚ) < 10)).mpr hq

/-- C8 witness: two ordered unit-duration events; the cue times are
non-decreasing. -/
theorem C8_witness :
    ∃ cues, ((buildSubMaker ['a', 'b'] [((0, 1), ['a']), ((1, 1), ['b'])]).get_srt 1).1 =
        some cues ∧
      (∀ c ∈ cues, c.start_time ≤ c.end_time) ∧
      cues.Chain' (fun a b => a.end_time ≤ b.start_time) :=
  C8_temporal_order ['a', 'b'] [((0, 1), ['a']), ((1, 1), ['b'])] 1 (by decide)
    (by
      rw [List.chain'_cons]
      exact ⟨by decide, List.chain'_singleton _⟩)
